import Mathlib

/-!
Verification of the proof engine of banyan-shared-rs.

This file shallowly embeds the pure computational core of the repository
(src/proofs/mod.rs, src/proofs/window.rs, src/types.rs, src/eth.rs) and
settles the frozen claims about it.

Machine integers are embedded as `Nat` with explicit `% 2 ^ 64` where u64
overflow can occur (the standard release profile wraps; debug builds abort).
Rust f32/f64 conversions of integers are embedded exactly: converting an
integer to an IEEE binary float rounds it to the nearest value with a
24-bit (f32) or 53-bit (f64) significand, ties to even; this is the
`roundNearest` function below.  Division of such a value by 1024 (a power
of two) is exact in floating point, `ceil` of the exact quotient is exactly
representable for the magnitudes that occur here, and `as u64` / `as usize`
saturate at the maximum value, so the whole float excursion of the source
is captured by exact natural-number arithmetic on the rounded input.
-/

namespace Banyan

/-- Reduction modulo 2^64, the wrap of unchecked u64 arithmetic in a Rust
release build (overflow checks off). -/
def wrap64 (n : Nat) : Nat := n % 2 ^ 64

/-- Wrapping u64 subtraction for operands below 2^64: `a - b` when `b ≤ a`,
otherwise the two's-complement wrap `2^64 + a - b`. -/
def u64_sub (a b : Nat) : Nat := (2 ^ 64 + a - b) % 2 ^ 64

/-- Rounding of a natural number to the nearest value representable with
`prec` significant binary digits, ties to even: the value of `n as f32`
(`prec = 24`) or `n as f64` (`prec = 53`) for `n` in u64 range. -/
def roundNearest (prec n : Nat) : Nat :=
  if n < 2 ^ prec then n
  else
    let e := n.log2 + 1 - prec
    let p := 2 ^ e
    let q := n / p
    let r := n % p
    let q2 :=
      if r < p / 2 then q
      else if p / 2 < r then q + 1
      else if q % 2 = 0 then q else q + 1
    q2 * p

/-- Integers up to `2 ^ prec` are exactly representable, so the float
conversion is lossless there. -/
theorem roundNearest_eq_of_le (prec n : Nat) (hp : 0 < prec) (h : n ≤ 2 ^ prec) :
    roundNearest prec n = n := by
  by_cases hlt : n < 2 ^ prec
  · unfold roundNearest
    rw [if_pos hlt]
  · have hn : n = 2 ^ prec := le_antisymm h (not_lt.1 hlt)
    subst hn
    have hl : Nat.log2 (2 ^ prec) = prec := by
      rw [Nat.log2_eq_log_two]
      exact Nat.log_pow (by norm_num) prec
    have h2 : 2 ^ prec = 2 * 2 ^ (prec - 1) := by
      conv_lhs => rw [show prec = prec - 1 + 1 by omega]
      ring
    unfold roundNearest
    rw [if_neg (lt_irrefl _)]
    simp only [hl, Nat.add_sub_cancel_left, pow_one]
    have hr : 2 ^ prec % 2 = 0 := by
      rw [h2]; exact Nat.mul_mod_right 2 _
    rw [hr]
    norm_num
    omega

/-- The bao chunk size: 1024 bytes per bao chunk (src/proofs/mod.rs). -/
def CHUNK_SIZE : Nat := 1024

/-- The IPFS DAG block size used by the incremental reader loop
(src/proofs/mod.rs): 256 kB. -/
def DAG_BLOCK_SIZE : Nat := 256000

/-- Embedding of `get_num_chunks` (src/proofs/mod.rs line 49):
`(size as f32 / CHUNK_SIZE as f32).ceil() as u64`.

The conversion `size as f32` rounds to the nearest 24-bit-significand value
(`roundNearest 24 size`); dividing that value by 1024 is exact in f32
(pure exponent shift, no underflow for these magnitudes); `ceil` of the
exact quotient is exactly representable (the result is below 2^54); and
`as u64` saturates at `2^64 - 1`.  Hence the composite equals the exact
ceiling division of the ROUNDED size. -/
def get_num_chunks (size : Nat) : Nat :=
  min ((roundNearest 24 size + (CHUNK_SIZE - 1)) / CHUNK_SIZE) (2 ^ 64 - 1)

/-- Specification-side chunk count: the exact ceiling division
`ceil(size / CHUNK_SIZE)` named by the spec.  This is also the true number
of 1024-byte chunks in the bao encoding of `size` bytes of content (for
`size > 0`), which the third-party bao library computes with exact integer
arithmetic. -/
def num_chunks_exact (size : Nat) : Nat := (size + (CHUNK_SIZE - 1)) / CHUNK_SIZE

/-- Embedding of `compute_random_block_choice_from_hash`
(src/proofs/mod.rs lines 54-63).  `block_hash` is the full-width unsigned
integer value of the H256 (the source reduces the full U256 value).
`none` models the panic of the U256 remainder when
`get_num_chunks file_length = 0` (i.e. `file_length = 0`): the uint crate
aborts on remainder by zero, and the function has no error channel.
The subtraction `file_length - chunk_offset` of the source is wrapping u64
subtraction, and the multiplication `chunk_number * CHUNK_SIZE` is wrapping
u64 multiplication, embedded as such. -/
def compute_random_block_choice_from_hash (block_hash file_length : Nat) :
    Option (Nat × Nat) :=
  let nc := get_num_chunks file_length
  if nc = 0 then none
  else
    let chunk_number := block_hash % nc
    let chunk_offset := wrap64 (chunk_number * CHUNK_SIZE)
    let chunk_size :=
      if chunk_number = nc - 1 then u64_sub file_length chunk_offset
      else CHUNK_SIZE
    some (chunk_offset, chunk_size)

/-- C2: the claim that `get_num_chunks` equals the exact ceiling division
for every u64 size is violated by the code: the cast through f32 (24-bit
significand) loses the low bits of sizes above 2^24.  At
`size = 2^24 + 1 = 16777217` the code yields 16384 chunks while the exact
ceiling is 16385.  The four small example sizes of the claim do hold. -/
theorem get_num_chunks_f32_divergence :
    get_num_chunks 1024 = 1 ∧ get_num_chunks 1025 = 2 ∧
    get_num_chunks 2048 = 2 ∧ get_num_chunks 2049 = 3 ∧
    get_num_chunks 16777217 = 16384 ∧ num_chunks_exact 16777217 = 16385 := by
  have h1 : roundNearest 24 1024 = 1024 := by norm_num [roundNearest]
  have h2 : roundNearest 24 1025 = 1025 := by norm_num [roundNearest]
  have h3 : roundNearest 24 2048 = 2048 := by norm_num [roundNearest]
  have h4 : roundNearest 24 2049 = 2049 := by norm_num [roundNearest]
  have h5 : roundNearest 24 16777217 = 16777216 := by norm_num [roundNearest, Nat.log2]
  unfold get_num_chunks num_chunks_exact
  rw [h1, h2, h3, h4, h5]
  norm_num [CHUNK_SIZE]

/-- C1: the challenge-derivation invariant holds at the claim's four
concrete examples for `file_size = 2049`, but fails for large files because
of the f32 chunk count: at `block_hash = 16384`, `file_size = 16777217`
the code returns `(0, 1024)` (it reduces the hash modulo the wrong chunk
count 16384), while the claimed invariant — chunk index
`16384 mod 16385 = 16384` — demands offset `16384 * 1024 = 16777216` with
chunk size 1. -/
theorem compute_random_block_choice_f32_divergence :
    compute_random_block_choice_from_hash 0 2049 = some (0, 1024) ∧
    compute_random_block_choice_from_hash 1 2049 = some (1024, 1024) ∧
    compute_random_block_choice_from_hash 2 2049 = some (2048, 1) ∧
    compute_random_block_choice_from_hash 379 2049 = some (1024, 1024) ∧
    compute_random_block_choice_from_hash 16384 16777217 = some (0, 1024) ∧
    (16384 % num_chunks_exact 16777217) * CHUNK_SIZE = 16777216 := by
  have h4 : get_num_chunks 2049 = 3 := by
    have h : roundNearest 24 2049 = 2049 := by norm_num [roundNearest]
    unfold get_num_chunks
    rw [h]
    norm_num [CHUNK_SIZE]
  have h5 : get_num_chunks 16777217 = 16384 := by
    have h : roundNearest 24 16777217 = 16777216 := by norm_num [roundNearest, Nat.log2]
    unfold get_num_chunks
    rw [h]
    norm_num [CHUNK_SIZE]
  unfold compute_random_block_choice_from_hash
  rw [h4, h5]
  norm_num [num_chunks_exact, wrap64, u64_sub, CHUNK_SIZE]

/-- C8 counterexample: at `block_hash = 0`, `file_size = 0` the derivation
does not return any value at all — `get_num_chunks 0 = 0` and the U256
remainder by zero aborts the process (embedded as `none`).  In particular
it does not return an `EmptyContent` error: no such error value exists
anywhere in the code, and the function's return type `(u64, u64)` has no
error channel. -/
theorem compute_random_block_choice_empty_counterexample :
    compute_random_block_choice_from_hash 0 0 = none := by
  decide

/-- C8 amended: for every block hash, challenging zero-length content
panics with a remainder-by-zero (modelled as `none`) instead of returning
an `EmptyContent` error. -/
theorem compute_random_block_choice_empty_panics (block_hash : Nat) :
    compute_random_block_choice_from_hash block_hash 0 = none := by
  have h0 : get_num_chunks 0 = 0 := by decide
  unfold compute_random_block_choice_from_hash
  rw [h0]
  rfl

/-- C8 witness: the zero-length derivation aborts (yields no value) also at
the concrete block hash 5. -/
theorem compute_random_block_choice_empty_panics_witness :
    compute_random_block_choice_from_hash 5 0 = none :=
  compute_random_block_choice_empty_panics 5

/-- Embedding of `impl Add for BlockNum` (src/types.rs lines 201-206): plain
unchecked u64 addition, which wraps modulo 2^64 when overflow checks are off
(the standard release profile; debug builds abort through the language's own
check — the code itself performs no check). -/
def blockNum_add (a b : Nat) : Nat := wrap64 (a + b)

/-- Embedding of `impl Sub for BlockNum` (src/types.rs lines 208-213): plain
unchecked u64 subtraction (wrapping, see `blockNum_add`). -/
def blockNum_sub (a b : Nat) : Nat := u64_sub a b

/-- Embedding of `impl Mul for BlockNum` (src/types.rs lines 215-220): plain
unchecked u64 multiplication (wrapping, see `blockNum_add`). -/
def blockNum_mul (a b : Nat) : Nat := wrap64 (a * b)

/-- Embedding of u64 `div_euclid` (used by the window functions), which for
unsigned integers is plain integer division.  A zero divisor panics in Rust;
every claim about the window functions hypothesizes a positive proof
frequency, which keeps that case out of scope. -/
def blockNum_div (a b : Nat) : Nat := a / b

/-- The deal-timeline fields of `OnChainDealInfo` (src/types.rs lines
396-410).  The remaining on-chain fields (price, collateral, addresses,
cid, checksum, status) are not read by any function embedded here and are
omitted. -/
structure OnChainDealInfo where
  deal_start_block : Nat
  deal_length_in_blocks : Nat
  proof_frequency_in_blocks : Nat

/-- Embedding of `DealStatusError` (src/proofs/window.rs lines 3-7). -/
inductive DealStatusError where
  | Future
  | Past
deriving DecidableEq

/-- Embedding of `get_the_current_window` (src/proofs/window.rs lines
10-25). -/
def get_the_current_window (deal_info : OnChainDealInfo) (current_block_num : Nat) :
    Except DealStatusError Nat :=
  if current_block_num < deal_info.deal_start_block then .error .Future
  else if blockNum_add deal_info.deal_start_block deal_info.deal_length_in_blocks ≤
      current_block_num then .error .Past
  else
    let window_number :=
      blockNum_div (blockNum_sub current_block_num deal_info.deal_start_block)
        deal_info.proof_frequency_in_blocks
    .ok (blockNum_add deal_info.deal_start_block
      (blockNum_mul deal_info.proof_frequency_in_blocks window_number))

/-- Embedding of `get_the_next_window` (src/proofs/window.rs lines 29-42). -/
def get_the_next_window (deal_info : OnChainDealInfo) (last_submission : Nat) :
    Option Nat :=
  let window_number :=
    blockNum_div (blockNum_sub last_submission deal_info.deal_start_block)
      deal_info.proof_frequency_in_blocks
  let elapsed_length :=
    blockNum_mul deal_info.proof_frequency_in_blocks (wrap64 (window_number + 1))
  if deal_info.deal_length_in_blocks ≤ elapsed_length then none
  else some (blockNum_add deal_info.deal_start_block elapsed_length)

/-- Embedding of `get_num_windows` (src/proofs/window.rs lines 45-53):
`math::round::ceil((deal_length.0 / window_size.0) as f64, 0) as usize`.
The u64 quotient is computed FIRST (integer floor division); casting it to
f64 rounds it to a 53-bit significand; `ceil` of that integral value is the
value itself; `as usize` saturates at `2^64 - 1`. -/
def get_num_windows (deal_length window_size : Nat) : Except String Nat :=
  if window_size = 0 then .error "Cannot divide by zero"
  else .ok (min (roundNearest 53 (deal_length / window_size)) (2 ^ 64 - 1))

/-- Embedding of `EthClient::deal_over` (src/eth.rs lines 458-460). -/
def deal_over (current_block_num : Nat) (deal_info : OnChainDealInfo) : Bool :=
  decide (blockNum_add deal_info.deal_start_block deal_info.deal_length_in_blocks <
    current_block_num)

theorem wrap64_eq_of_lt {n : Nat} (h : n < 2 ^ 64) : wrap64 n = n :=
  Nat.mod_eq_of_lt h

theorem u64_sub_eq_of_le {a b : Nat} (hba : b ≤ a) (ha : a < 2 ^ 64) :
    u64_sub a b = a - b := by
  unfold u64_sub
  omega

/-- C9: the BlockNum arithmetic operators are plain unchecked u64 `+`, `-`,
`*`: with overflow checks off (standard release profile) an overflowing
operation silently returns the wrapped value — it does not signal any
overflow error.  `BlockNum(2^64 - 1) + BlockNum(1)` yields `BlockNum(0)`,
`BlockNum(0) - BlockNum(1)` yields `BlockNum(2^64 - 1)`, and
`BlockNum(2^63) * BlockNum(2)` yields `BlockNum(0)`, each different from
the exact mathematical result. -/
theorem blockNum_arith_wraps :
    blockNum_add (2 ^ 64 - 1) 1 = 0 ∧
    blockNum_sub 0 1 = 2 ^ 64 - 1 ∧
    blockNum_mul (2 ^ 63) 2 = 0 ∧
    (2 ^ 64 - 1) + 1 ≠ blockNum_add (2 ^ 64 - 1) 1 ∧
    2 ^ 63 * 2 ≠ blockNum_mul (2 ^ 63) 2 := by
  norm_num [blockNum_add, blockNum_sub, blockNum_mul, wrap64, u64_sub]

/-- C5: `get_the_current_window` returns the `Future` error exactly when the
current block precedes `deal_start_block`, the `Past` error exactly when it
has reached `deal_start_block + deal_length_in_blocks`, and otherwise
`Ok(deal_start_block + proof_frequency_in_blocks * window_index)` with
`window_index = (current - start) div frequency`; for start block 3 and
frequency 5 the windows 0, 1, 2, 3 have target block starts 3, 8, 13, 18.
The arithmetic no-overflow bounds keep the wrapping u64 operations exact,
as the spec demands of every deal timeline. -/
theorem get_the_current_window_spec :
    (∀ (deal_info : OnChainDealInfo) (current_block_num : Nat),
      0 < deal_info.proof_frequency_in_blocks →
      deal_info.deal_start_block + deal_info.deal_length_in_blocks < 2 ^ 64 →
      current_block_num < 2 ^ 64 →
      (get_the_current_window deal_info current_block_num = .error .Future ↔
        current_block_num < deal_info.deal_start_block) ∧
      (get_the_current_window deal_info current_block_num = .error .Past ↔
        deal_info.deal_start_block + deal_info.deal_length_in_blocks ≤
          current_block_num) ∧
      (deal_info.deal_start_block ≤ current_block_num →
        current_block_num <
          deal_info.deal_start_block + deal_info.deal_length_in_blocks →
        get_the_current_window deal_info current_block_num =
          .ok (deal_info.deal_start_block +
            deal_info.proof_frequency_in_blocks *
              ((current_block_num - deal_info.deal_start_block) /
                deal_info.proof_frequency_in_blocks)))) ∧
    get_the_current_window ⟨3, 21, 5⟩ 3 = .ok 3 ∧
    get_the_current_window ⟨3, 21, 5⟩ 8 = .ok 8 ∧
    get_the_current_window ⟨3, 21, 5⟩ 13 = .ok 13 ∧
    get_the_current_window ⟨3, 21, 5⟩ 18 = .ok 18 := by
  refine ⟨?_, rfl, rfl, rfl, rfl⟩
  intro deal cur hfreq hlen hcur
  have hadd : blockNum_add deal.deal_start_block deal.deal_length_in_blocks =
      deal.deal_start_block + deal.deal_length_in_blocks := wrap64_eq_of_lt hlen
  unfold get_the_current_window
  rw [hadd]
  by_cases h1 : cur < deal.deal_start_block
  · rw [if_pos h1]
    refine ⟨by simp [h1], ?_, ?_⟩
    · have h2 : ¬(deal.deal_start_block + deal.deal_length_in_blocks ≤ cur) := by
        omega
      simp [h2]
    · intro h3
      omega
  · rw [if_neg h1]
    by_cases h2 : deal.deal_start_block + deal.deal_length_in_blocks ≤ cur
    · rw [if_pos h2]
      refine ⟨by simp [h1], by simp [h2], ?_⟩
      intro _ h4
      omega
    · rw [if_neg h2]
      have hsub : blockNum_sub cur deal.deal_start_block =
          cur - deal.deal_start_block := u64_sub_eq_of_le (by omega) hcur
      have hdivle : deal.proof_frequency_in_blocks *
          ((cur - deal.deal_start_block) / deal.proof_frequency_in_blocks) ≤
          cur - deal.deal_start_block := by
        rw [mul_comm]
        exact Nat.div_mul_le_self _ _
      have hm : blockNum_mul deal.proof_frequency_in_blocks
          ((cur - deal.deal_start_block) / deal.proof_frequency_in_blocks) =
          deal.proof_frequency_in_blocks *
            ((cur - deal.deal_start_block) / deal.proof_frequency_in_blocks) :=
        wrap64_eq_of_lt (by omega)
      refine ⟨by simp [h1], by simp [h2], ?_⟩
      intro _ _
      simp only [blockNum_div, hsub, hm]
      have ha2 : blockNum_add deal.deal_start_block
          (deal.proof_frequency_in_blocks *
            ((cur - deal.deal_start_block) / deal.proof_frequency_in_blocks)) =
          deal.deal_start_block + deal.proof_frequency_in_blocks *
            ((cur - deal.deal_start_block) / deal.proof_frequency_in_blocks) :=
        wrap64_eq_of_lt (by omega)
      rw [ha2]

/-- C5 witness: block 7 lies in window 0 of the deal with start block 3,
length 21, frequency 5, so the current window's target block start is 3. -/
theorem get_the_current_window_spec_witness :
    get_the_current_window ⟨3, 21, 5⟩ 7 = Except.ok 3 :=
  (get_the_current_window_spec.1 ⟨3, 21, 5⟩ 7 (by norm_num) (by norm_num)
    (by norm_num)).2.2 (by norm_num) (by norm_num)

/-- C4: `get_the_next_window` returns `none` exactly when the following
window's target block start `deal_start_block + frequency * (window_number
+ 1)` would reach `deal_start_block + deal_length_in_blocks`, and otherwise
returns `some` of that target block start.  The no-overflow bounds keep the
wrapping u64 operations exact. -/
theorem get_the_next_window_spec :
    ∀ (deal_info : OnChainDealInfo) (last_submission : Nat),
      0 < deal_info.proof_frequency_in_blocks →
      deal_info.deal_start_block ≤ last_submission →
      last_submission < 2 ^ 64 →
      deal_info.deal_start_block + deal_info.deal_length_in_blocks < 2 ^ 64 →
      deal_info.proof_frequency_in_blocks *
          ((last_submission - deal_info.deal_start_block) /
            deal_info.proof_frequency_in_blocks + 1) < 2 ^ 64 →
      (get_the_next_window deal_info last_submission = none ↔
        deal_info.deal_start_block + deal_info.deal_length_in_blocks ≤
          deal_info.deal_start_block + deal_info.proof_frequency_in_blocks *
            ((last_submission - deal_info.deal_start_block) /
              deal_info.proof_frequency_in_blocks + 1)) ∧
      (deal_info.deal_start_block + deal_info.proof_frequency_in_blocks *
          ((last_submission - deal_info.deal_start_block) /
            deal_info.proof_frequency_in_blocks + 1) <
          deal_info.deal_start_block + deal_info.deal_length_in_blocks →
        get_the_next_window deal_info last_submission =
          some (deal_info.deal_start_block + deal_info.proof_frequency_in_blocks *
            ((last_submission - deal_info.deal_start_block) /
              deal_info.proof_frequency_in_blocks + 1))) := by
  intro deal last hfreq hstart hlast hlen hov
  have hsub : blockNum_sub last deal.deal_start_block =
      last - deal.deal_start_block := u64_sub_eq_of_le hstart hlast
  have hw1 : wrap64 ((last - deal.deal_start_block) /
      deal.proof_frequency_in_blocks + 1) =
      (last - deal.deal_start_block) / deal.proof_frequency_in_blocks + 1 := by
    refine wrap64_eq_of_lt ?_
    have := Nat.le_mul_of_pos_left
      ((last - deal.deal_start_block) / deal.proof_frequency_in_blocks + 1) hfreq
    omega
  have hm : blockNum_mul deal.proof_frequency_in_blocks
      ((last - deal.deal_start_block) / deal.proof_frequency_in_blocks + 1) =
      deal.proof_frequency_in_blocks *
        ((last - deal.deal_start_block) / deal.proof_frequency_in_blocks + 1) :=
    wrap64_eq_of_lt hov
  unfold get_the_next_window
  simp only [blockNum_div, hsub, hw1, hm]
  by_cases h : deal.deal_length_in_blocks ≤
      deal.proof_frequency_in_blocks *
        ((last - deal.deal_start_block) / deal.proof_frequency_in_blocks + 1)
  · rw [if_pos h]
    exact ⟨by simp [h], fun hlt => by omega⟩
  · rw [if_neg h]
    have ha : blockNum_add deal.deal_start_block
        (deal.proof_frequency_in_blocks *
          ((last - deal.deal_start_block) / deal.proof_frequency_in_blocks + 1)) =
        deal.deal_start_block + deal.proof_frequency_in_blocks *
          ((last - deal.deal_start_block) / deal.proof_frequency_in_blocks + 1) :=
      wrap64_eq_of_lt (by omega)
    rw [ha]
    exact ⟨by simp; omega, fun _ => rfl⟩

/-- C4 witness: after a submission at block 18 in the deal with start 3,
length 21, frequency 5 (window 3), the next window's target block start is
3 + 5 * 4 = 23, which is below the final block 24, so the deal is not yet
complete. -/
theorem get_the_next_window_spec_witness :
    get_the_next_window ⟨3, 21, 5⟩ 18 = some 23 :=
  (get_the_next_window_spec ⟨3, 21, 5⟩ 18 (by norm_num) (by norm_num)
    (by norm_num) (by norm_num) (by norm_num)).2 (by norm_num)

/-- C3 counterexample: `get_num_windows(20, 3)` returns `Ok(6)` — the u64
quotient `20 / 3 = 6` is computed before the float `ceil` ever runs — and
not the exact ceiling `Ok(7)` the claim demands.  The code's own unit test
(src/proofs/window.rs line 67) asserts the value 6. -/
theorem get_num_windows_not_ceiling :
    get_num_windows 20 3 = Except.ok 6 ∧ get_num_windows 20 3 ≠ Except.ok 7 := by
  have h : get_num_windows 20 3 = Except.ok 6 := by
    norm_num [get_num_windows, roundNearest]
  exact ⟨h, by rw [h]; simp⟩

/-- C3 amended: `get_num_windows(deal_length, window_size)` rejects
`window_size = 0` with the division-by-zero error and otherwise returns the
FLOOR quotient `deal_length div window_size` (exactly, whenever the
quotient fits in the 53-bit f64 significand, in particular for every
`deal_length < 2^53`); `num_windows(20, 2) = 10` and
`num_windows(20, 3) = 6`. -/
theorem get_num_windows_floor_division :
    (∀ deal_length window_size : Nat,
      get_num_windows deal_length window_size =
        Except.error "Cannot divide by zero" ↔ window_size = 0) ∧
    (∀ deal_length window_size : Nat,
      0 < window_size → deal_length < 2 ^ 53 →
      get_num_windows deal_length window_size =
        Except.ok (deal_length / window_size)) ∧
    get_num_windows 20 2 = Except.ok 10 ∧
    get_num_windows 20 3 = Except.ok 6 := by
  refine ⟨?_, ?_, ?_, ?_⟩
  · intro d w
    unfold get_num_windows
    by_cases hw : w = 0
    · simp [hw]
    · simp [hw]
  · intro d w hw hd
    unfold get_num_windows
    rw [if_neg (by omega)]
    have hq : d / w ≤ 2 ^ 53 := le_of_lt (lt_of_le_of_lt (Nat.div_le_self d w) hd)
    rw [roundNearest_eq_of_le 53 (d / w) (by norm_num) hq]
    have : d / w ≤ 2 ^ 64 - 1 := by
      have h1 : (2 : Nat) ^ 53 ≤ 2 ^ 64 - 1 := by norm_num
      omega
    rw [min_eq_left this]
  · norm_num [get_num_windows, roundNearest]
  · norm_num [get_num_windows, roundNearest]

/-- C3 witness: dividing a deal of length 20 into windows of size 2 gives
10 windows. -/
theorem get_num_windows_floor_division_witness :
    get_num_windows 20 2 = Except.ok 10 :=
  get_num_windows_floor_division.2.1 20 2 (by norm_num) (by norm_num)

/-- C10: `deal_over` is true exactly when the current block is strictly
beyond `deal_start_block + deal_length_in_blocks`; at exactly that final
block `deal_over` is still false while `get_the_current_window` already
reports the `Past` error — the two completion predicates disagree there. -/
theorem deal_over_boundary :
    ∀ (deal_info : OnChainDealInfo) (current_block_num : Nat),
      deal_info.deal_start_block + deal_info.deal_length_in_blocks < 2 ^ 64 →
      (deal_over current_block_num deal_info = true ↔
        deal_info.deal_start_block + deal_info.deal_length_in_blocks <
          current_block_num) ∧
      deal_over (deal_info.deal_start_block + deal_info.deal_length_in_blocks)
        deal_info = false ∧
      get_the_current_window deal_info
        (deal_info.deal_start_block + deal_info.deal_length_in_blocks) =
        .error .Past := by
  intro deal cur hlen
  have hadd : blockNum_add deal.deal_start_block deal.deal_length_in_blocks =
      deal.deal_start_block + deal.deal_length_in_blocks := wrap64_eq_of_lt hlen
  refine ⟨by simp [deal_over, hadd], by simp [deal_over, hadd], ?_⟩
  unfold get_the_current_window
  rw [hadd, if_neg (by omega), if_pos (le_refl _)]

/-- C10 witness: for the deal with start 3 and length 21 the final block is
24; there `deal_over` is false while the window scheduler reports `Past`. -/
theorem deal_over_boundary_witness :
    deal_over 24 ⟨3, 21, 5⟩ = false ∧
    get_the_current_window ⟨3, 21, 5⟩ 24 = Except.error DealStatusError.Past := by
  have h := deal_over_boundary ⟨3, 21, 5⟩ 24 (by norm_num)
  exact ⟨h.2.1, h.2.2⟩

/-- Modelled from the spec: the third-party bao incremental outboard
encoder (`bao::encode::Encoder::new_outboard`, not part of this
repository).  Its observable state is the sequence of bytes written so far;
per spec section 4.2 construction is a pure function of the content bytes,
so `finalize` yields the outboard encoding — tree bytes and root digest —
of exactly the bytes written.  The encoding function itself is kept as a
parameter `outboard` of the finalization. -/
structure Encoder where
  written : List Nat

/-- The fresh incremental outboard encoder: nothing written yet. -/
def Encoder.new_outboard : Encoder := ⟨[]⟩

/-- Writing a buffer appends its bytes to the encoder state
(`encoder.write_all(&buf[..bytes_read])` in the source loop). -/
def Encoder.write_all (e : Encoder) (buf : List Nat) : Encoder :=
  ⟨e.written ++ buf⟩

/-- Finalization applies the outboard encoding to everything written. -/
def Encoder.finalize (outboard : List Nat → List Nat × Nat) (e : Encoder) :
    List Nat × Nat := outboard e.written

/-- The read loop of `gen_obao_ipfs` (src/proofs/mod.rs lines 85-93): read
up to DAG_BLOCK_SIZE bytes, stop at a zero-byte read, otherwise hand the
block to the encoder and continue.  Over a reader backed by `content` the
loop yields these consecutive blocks; the fuel (instantiated with the
content length) bounds the iteration count, every round consuming at least
one byte. -/
def read_blocks_fuel : Nat → List Nat → List (List Nat)
  | 0, _ => []
  | fuel + 1, content =>
    if content = [] then []
    else content.take DAG_BLOCK_SIZE ::
      read_blocks_fuel fuel (content.drop DAG_BLOCK_SIZE)

/-- The block sequence produced by the `gen_obao_ipfs` read loop. -/
def read_blocks (content : List Nat) : List (List Nat) :=
  read_blocks_fuel content.length content

/-- Embedding of `gen_obao` (src/proofs/mod.rs lines 66-74): read the whole
content into memory, then encode it in one bulk call. -/
def gen_obao (outboard : List Nat → List Nat × Nat) (content : List Nat) :
    List Nat × Nat := outboard content

/-- Embedding of `gen_obao_ipfs` (src/proofs/mod.rs lines 78-96): feed the
content to the incremental encoder in blocks of at most DAG_BLOCK_SIZE
bytes, then finalize. -/
def gen_obao_ipfs (outboard : List Nat → List Nat × Nat) (content : List Nat) :
    List Nat × Nat :=
  Encoder.finalize outboard
    (List.foldl Encoder.write_all Encoder.new_outboard (read_blocks content))

theorem foldl_write_all :
    ∀ (fuel : Nat) (content acc : List Nat), content.length ≤ fuel →
      (List.foldl Encoder.write_all ⟨acc⟩ (read_blocks_fuel fuel content)).written =
        acc ++ content := by
  intro fuel
  induction fuel with
  | zero =>
    intro c acc h
    have hc : c = [] := List.eq_nil_of_length_eq_zero (by omega)
    simp [read_blocks_fuel, hc]
  | succ n ih =>
    intro c acc h
    by_cases hc : c = []
    · simp [read_blocks_fuel, hc]
    · rw [read_blocks_fuel, if_neg hc]
      rw [List.foldl_cons]
      rw [show Encoder.write_all ⟨acc⟩ (c.take DAG_BLOCK_SIZE) =
        (⟨acc ++ c.take DAG_BLOCK_SIZE⟩ : Encoder) from rfl]
      rw [ih (c.drop DAG_BLOCK_SIZE) (acc ++ c.take DAG_BLOCK_SIZE) ?_]
      · rw [List.append_assoc, List.take_append_drop]
      · have hpos : 0 < c.length := List.length_pos.2 hc
        rw [List.length_drop]
        have hd : 0 < DAG_BLOCK_SIZE := by norm_num [DAG_BLOCK_SIZE]
        omega

/-- C6: for every content byte sequence and every outboard encoding
function, the bulk build (`gen_obao`) and the incremental block-fed build
(`gen_obao_ipfs`) return the same tree bytes and the same root digest: the
read loop loses, duplicates and reorders nothing, so the encoder is
finalized over exactly the content bytes. -/
theorem gen_obao_modes_agree (outboard : List Nat → List Nat × Nat)
    (content : List Nat) :
    gen_obao_ipfs outboard content = gen_obao outboard content := by
  unfold gen_obao_ipfs gen_obao Encoder.finalize read_blocks Encoder.new_outboard
  rw [foldl_write_all content.length content [] (le_refl _)]
  rw [List.nil_append]

/-- C6 witness: a concrete instantiation of the mode equivalence, with a
simple executable stand-in for the outboard encoding function. -/
theorem gen_obao_modes_agree_witness :
    gen_obao_ipfs (fun c => (c, c.length)) [1, 2, 3] =
      gen_obao (fun c => (c, c.length)) [1, 2, 3] :=
  gen_obao_modes_agree (fun c => (c, c.length)) [1, 2, 3]

/-- Modelled from the spec: the bao/blake3 tree layout used by the
third-party `bao` crate (spec section 4.2, 4.4 and glossary).  Content is
split into CHUNK_SIZE-byte chunks; a subtree over `n ≥ 2` chunks splits
after the largest power of two strictly below `n`.  For `n ≥ 2` this is
`2 ^ log2 (n - 1)`. -/
def bao_left_count (n : Nat) : Nat := 2 ^ Nat.log2 (n - 1)

/-- The CHUNK_SIZE-sized chunks of a byte sequence (last chunk possibly
short); the fuel, instantiated with the content length, bounds the
recursion. -/
def content_chunks_fuel : Nat → List Nat → List (List Nat)
  | 0, _ => []
  | fuel + 1, c =>
    if c.length ≤ CHUNK_SIZE then [c]
    else c.take CHUNK_SIZE :: content_chunks_fuel fuel (c.drop CHUNK_SIZE)

/-- The chunk decomposition of a (nonempty) content byte sequence. -/
def content_chunks (c : List Nat) : List (List Nat) :=
  content_chunks_fuel c.length c

/-- The byte size of chunk `i` of a file of `len` bytes: CHUNK_SIZE for
every chunk but the last, which holds the remaining bytes. -/
def chunk_size_at (len i : Nat) : Nat :=
  if i = num_chunks_exact len - 1 then len - CHUNK_SIZE * i else CHUNK_SIZE

/-- Modelled from the spec: the root/subtree digest of the bao outboard
tree over a list of chunks, parameterized by the chunk-hash function `fc`
(chunk index, chunk bytes, is-root flag) and the parent-node hash function
`fp` (left digest, right digest, is-root flag) of the third-party bao
crate; `start` is the global index of the first chunk, and the fuel
(instantiated with the chunk count) bounds the recursion. -/
def subtree_hash (fc : Nat → List Nat → Bool → Nat) (fp : Nat → Nat → Bool → Nat) :
    Nat → Nat → List (List Nat) → Bool → Nat
  | 0, _, _, _ => 0
  | fuel + 1, start, chunks, isRoot =>
    if chunks.length ≤ 1 then fc start (chunks.headD []) isRoot
    else
      let k := bao_left_count chunks.length
      fp (subtree_hash fc fp fuel start (chunks.take k) false)
        (subtree_hash fc fp fuel (start + k) (chunks.drop k) false) isRoot

/-- Modelled from the spec: the slice the bao `SliceExtractor` emits for a
single-chunk range — walking from the root towards chunk `i`, it records
at every parent node the digests of both children and, at the leaf, the
chunk bytes (spec section 4.4: exactly the authentication-path data plus
the leaf payload). -/
def extract_slice (fc : Nat → List Nat → Bool → Nat) (fp : Nat → Nat → Bool → Nat) :
    Nat → Nat → List (List Nat) → Nat → List (Nat × Nat) × List Nat
  | 0, _, _, _ => ([], [])
  | fuel + 1, start, chunks, i =>
    if chunks.length ≤ 1 then ([], chunks.headD [])
    else
      let k := bao_left_count chunks.length
      let hl := subtree_hash fc fp fuel start (chunks.take k) false
      let hr := subtree_hash fc fp fuel (start + k) (chunks.drop k) false
      if i < k then
        let rest := extract_slice fc fp fuel start (chunks.take k) i
        ((hl, hr) :: rest.1, rest.2)
      else
        let rest := extract_slice fc fp fuel (start + k) (chunks.drop k) (i - k)
        ((hl, hr) :: rest.1, rest.2)

/-- Modelled from the spec: the bao `SliceDecoder` check for a
single-chunk slice.  It re-derives the tree shape from the content length
carried in the slice header (`n` chunks, left split `bao_left_count n`),
walks towards chunk `i`, checks at every parent that the two recorded
child digests combine (under `fp`) to the expected digest, descends with
the recorded child digest as the new expectation, and at the leaf checks
the chunk length and the chunk hash (under `fc`) against the expectation;
any structural mismatch yields `false`, never an exception. -/
def verify_slice (fc : Nat → List Nat → Bool → Nat) (fp : Nat → Nat → Bool → Nat) :
    Nat → Nat → Nat → Nat → Nat → Nat → List (Nat × Nat) → List Nat → Bool → Bool
  | 0, _, _, _, _, _, _, _, _ => false
  | fuel + 1, expected, len, n, start, i, [], chunk, isRoot =>
    if n ≤ 1 then
      (chunk.length == chunk_size_at len start) &&
        (fc start chunk isRoot == expected)
    else false
  | fuel + 1, expected, len, n, start, i, (hl, hr) :: rest, chunk, isRoot =>
    if n ≤ 1 then false
    else
      let k := bao_left_count n
      (fp hl hr isRoot == expected) &&
      (if i < k then verify_slice fc fp fuel hl len k start i rest chunk false
        else verify_slice fc fp fuel hr len (n - k) (start + k) (i - k) rest
          chunk false)

/-- A parsed single-chunk bao slice: the content length from the 8-byte
header, the recorded parent-node digest pairs along the path, and the
challenged chunk's bytes. -/
structure SliceProof where
  content_len : Nat
  parents : List (Nat × Nat)
  chunk : List Nat

/-- The root digest of the outboard encoding of `content` — the hash
`gen_obao` returns and the verifier holds (`blake3_checksum`). -/
def bao_outboard_root (fc : Nat → List Nat → Bool → Nat)
    (fp : Nat → Nat → Bool → Nat) (content : List Nat) : Nat :=
  subtree_hash fc fp (content_chunks content).length 0 (content_chunks content) true

/-- Modelled from the spec: `SliceExtractor::new_outboard(content, tree,
chunk_offset, chunk_size)` followed by `read_to_end`, for a challenge-shaped
range.  Under the claim's preconditions (offset a chunk boundary inside the
content, size the size of that chunk) the range `[offset, offset + size)`
covers exactly chunk `offset / CHUNK_SIZE`, whose slice is extracted; the
`size` argument selects the same range and is therefore not consulted
further by the single-chunk model. -/
def slice_extract_outboard (fc : Nat → List Nat → Bool → Nat)
    (fp : Nat → Nat → Bool → Nat) (content : List Nat)
    (chunk_offset chunk_size : Nat) : SliceProof :=
  { content_len := content.length
    parents := (extract_slice fc fp (content_chunks content).length 0
      (content_chunks content) (chunk_offset / CHUNK_SIZE)).1
    chunk := (extract_slice fc fp (content_chunks content).length 0
      (content_chunks content) (chunk_offset / CHUNK_SIZE)).2 }

/-- Embedding of `gen_proof` (src/proofs/mod.rs lines 98-111): derive the
challenged `(chunk_offset, chunk_size)` from the block hash and extract the
corresponding slice from content and outboard tree; `none` models the panic
of the challenge derivation on an empty file. -/
def gen_proof (fc : Nat → List Nat → Bool → Nat) (fp : Nat → Nat → Bool → Nat)
    (block_hash : Nat) (content : List Nat) : Option SliceProof :=
  match compute_random_block_choice_from_hash block_hash content.length with
  | none => none
  | some (chunk_offset, chunk_size) =>
    some (slice_extract_outboard fc fp content chunk_offset chunk_size)

/-- Embedding of `check_if_merkle_proof_is_valid` (src/eth.rs lines
427-441): run the bao `SliceDecoder` over the proof bytes against the
expected root digest, offset and size, and report whether decoding
succeeded (the source always returns `Ok` of that Boolean).  The decoder
re-derives the chunk count from the slice header; for a challenge-shaped
range the requested chunk is `chunk_offset / CHUNK_SIZE` and `chunk_size`
names the same range. -/
def check_if_merkle_proof_is_valid (fc : Nat → List Nat → Bool → Nat)
    (fp : Nat → Nat → Bool → Nat) (proof : SliceProof)
    (blake3_checksum chunk_offset chunk_size : Nat) : Bool :=
  verify_slice fc fp (num_chunks_exact proof.content_len) blake3_checksum
    proof.content_len (num_chunks_exact proof.content_len) 0
    (chunk_offset / CHUNK_SIZE) proof.parents proof.chunk true

theorem bao_left_count_pos (n : Nat) : 0 < bao_left_count n :=
  Nat.pos_pow_of_pos _ (by norm_num)

theorem bao_left_count_lt {n : Nat} (h : 2 ≤ n) : bao_left_count n < n := by
  have h1 : n - 1 ≠ 0 := by omega
  have h2 : 2 ^ Nat.log2 (n - 1) ≤ n - 1 := Nat.log2_self_le h1
  unfold bao_left_count
  omega

/-- Sizes of the chunks of a file of `len` bytes: the chunk list starting
at global chunk index `start` has at position `j` a chunk of
`chunk_size_at len (start + j)` bytes. -/
def chunks_sized (len start : Nat) (chunks : List (List Nat)) : Prop :=
  ∀ j cj, chunks.get? j = some cj → cj.length = chunk_size_at len (start + j)

theorem chunks_sized_take {len start k : Nat} {chunks : List (List Nat)}
    (h : chunks_sized len start chunks) :
    chunks_sized len start (chunks.take k) := by
  intro j cj hj
  have hjk : j < k := by
    have hlt := List.get?_eq_some.1 hj
    obtain ⟨hb, _⟩ := hlt
    have := List.length_take k chunks
    omega
  rw [List.get?_take hjk] at hj
  exact h j cj hj

theorem chunks_sized_drop {len start k : Nat} {chunks : List (List Nat)}
    (h : chunks_sized len start chunks) :
    chunks_sized len (start + k) (chunks.drop k) := by
  intro j cj hj
  rw [List.get?_drop] at hj
  have hk := h (k + j) cj hj
  rw [hk]
  congr 1
  omega

theorem content_chunks_fuel_length :
    ∀ (fuel : Nat) (c : List Nat), c.length ≤ fuel → c ≠ [] →
      (content_chunks_fuel fuel c).length = num_chunks_exact c.length := by
  intro fuel
  induction fuel with
  | zero =>
    intro c h hne
    exact absurd (List.eq_nil_of_length_eq_zero (by omega)) hne
  | succ n ih =>
    intro c h hne
    have hpos : 0 < c.length := List.length_pos.2 hne
    by_cases hc : c.length ≤ CHUNK_SIZE
    · rw [content_chunks_fuel, if_pos hc]
      unfold num_chunks_exact CHUNK_SIZE at *
      simp only [List.length_singleton]
      omega
    · rw [content_chunks_fuel, if_neg hc]
      rw [List.length_cons]
      have hd1 : (c.drop CHUNK_SIZE).length ≤ n := by
        rw [List.length_drop]; unfold CHUNK_SIZE at hc ⊢; omega
      have hd2 : c.drop CHUNK_SIZE ≠ [] := by
        rw [← List.length_pos, List.length_drop]; unfold CHUNK_SIZE at hc ⊢; omega
      rw [ih (c.drop CHUNK_SIZE) hd1 hd2]
      rw [List.length_drop]
      unfold num_chunks_exact CHUNK_SIZE at *
      omega

theorem content_chunks_fuel_sized :
    ∀ (fuel : Nat) (c : List Nat) (len start : Nat), c.length ≤ fuel →
      0 < c.length → len = CHUNK_SIZE * start + c.length →
      chunks_sized len start (content_chunks_fuel fuel c) := by
  intro fuel
  induction fuel with
  | zero =>
    intro c len start h hpos _
    omega
  | succ n ih =>
    intro c len start h hpos hlen
    by_cases hc : c.length ≤ CHUNK_SIZE
    · rw [content_chunks_fuel, if_pos hc]
      intro j cj hj
      match j, hj with
      | 0, hj =>
        have hcj : c = cj := by
          simpa using hj
        subst hcj
        unfold chunk_size_at num_chunks_exact CHUNK_SIZE at *
        have hnc : (len + (1024 - 1)) / 1024 - 1 = start := by omega
        rw [if_pos (by omega)]
        omega
    · rw [content_chunks_fuel, if_neg hc]
      intro j cj hj
      match j, hj with
      | 0, hj =>
        have hcj : c.take CHUNK_SIZE = cj := by
          simpa using hj
        subst hcj
        rw [List.length_take]
        unfold chunk_size_at num_chunks_exact CHUNK_SIZE at *
        rw [if_neg (by omega)]
        omega
      | j + 1, hj =>
        have hj2 : (content_chunks_fuel n (c.drop CHUNK_SIZE)).get? j = some cj := by
          simpa using hj
        have hd1 : (c.drop CHUNK_SIZE).length ≤ n := by
          rw [List.length_drop]; unfold CHUNK_SIZE at hc ⊢; omega
        have hd2 : 0 < (c.drop CHUNK_SIZE).length := by
          rw [List.length_drop]; unfold CHUNK_SIZE at hc ⊢; omega
        have hd3 : len = CHUNK_SIZE * (start + 1) + (c.drop CHUNK_SIZE).length := by
          rw [List.length_drop]; unfold CHUNK_SIZE at hc hlen ⊢; omega
        have hrec := ih (c.drop CHUNK_SIZE) len (start + 1) hd1 hd2 hd3
        have := hrec j cj hj2
        rw [this]
        congr 1
        omega

theorem content_chunks_ne_nil {c : List Nat} (h : c ≠ []) :
    content_chunks c ≠ [] := by
  rw [← List.length_pos, content_chunks,
    content_chunks_fuel_length c.length c (le_refl _) h]
  have := List.length_pos.2 h
  unfold num_chunks_exact CHUNK_SIZE
  omega

theorem content_chunks_sized {c : List Nat} (h : c ≠ []) :
    chunks_sized c.length 0 (content_chunks c) :=
  content_chunks_fuel_sized c.length c c.length 0 (le_refl _)
    (List.length_pos.2 h) (by omega)

theorem verify_extract :
    ∀ (fc : Nat → List Nat → Bool → Nat) (fp : Nat → Nat → Bool → Nat)
      (fuel : Nat) (chunks : List (List Nat)) (len start i : Nat) (isRoot : Bool),
      chunks.length ≤ fuel → chunks ≠ [] → i < chunks.length →
      chunks_sized len start chunks →
      verify_slice fc fp fuel (subtree_hash fc fp fuel start chunks isRoot) len
        chunks.length start i (extract_slice fc fp fuel start chunks i).1
        (extract_slice fc fp fuel start chunks i).2 isRoot = true := by
  intro fc fp fuel
  induction fuel with
  | zero =>
    intro chunks len start i isRoot hf hne hi hs
    exact absurd (List.eq_nil_of_length_eq_zero (by omega)) hne
  | succ n ih =>
    intro chunks len start i isRoot hf hne hi hs
    by_cases h1 : chunks.length ≤ 1
    · have hpos : 0 < chunks.length := List.length_pos.2 hne
      have hlen1 : chunks.length = 1 := by omega
      obtain ⟨c, hc⟩ := List.length_eq_one.1 hlen1
      subst hc
      have hext1 : (extract_slice fc fp (n + 1) start [c] i).1 = [] := by
        rw [extract_slice]; simp
      have hext2 : (extract_slice fc fp (n + 1) start [c] i).2 = c := by
        rw [extract_slice]; simp
      have hsub : subtree_hash fc fp (n + 1) start [c] isRoot =
          fc start c isRoot := by
        rw [subtree_hash]; simp
      have hs0 := hs 0 c rfl
      rw [Nat.add_zero] at hs0
      rw [hext1, hext2, hsub, verify_slice]
      simp [hs0]
    · have hcond : ¬(chunks.length ≤ 1) := h1
      have h2 : 2 ≤ chunks.length := by omega
      have hkpos := bao_left_count_pos chunks.length
      have hklt := bao_left_count_lt h2
      have htl : (chunks.take (bao_left_count chunks.length)).length =
          bao_left_count chunks.length := by
        rw [List.length_take]; omega
      have hsub : subtree_hash fc fp (n + 1) start chunks isRoot =
          fp (subtree_hash fc fp n start
              (chunks.take (bao_left_count chunks.length)) false)
            (subtree_hash fc fp n (start + bao_left_count chunks.length)
              (chunks.drop (bao_left_count chunks.length)) false) isRoot := by
        rw [subtree_hash]; simp only [if_neg hcond]
      by_cases hik : i < bao_left_count chunks.length
      · have hIH := ih (chunks.take (bao_left_count chunks.length)) len start i
          false (by rw [htl]; omega)
          (by rw [← List.length_pos, htl]; omega)
          (by rw [htl]; exact hik)
          (chunks_sized_take hs)
        rw [htl] at hIH
        have hext1 : (extract_slice fc fp (n + 1) start chunks i).1 =
            (subtree_hash fc fp n start
                (chunks.take (bao_left_count chunks.length)) false,
              subtree_hash fc fp n (start + bao_left_count chunks.length)
                (chunks.drop (bao_left_count chunks.length)) false) ::
              (extract_slice fc fp n start
                (chunks.take (bao_left_count chunks.length)) i).1 := by
          rw [extract_slice]; simp only [if_neg hcond, if_pos hik]
        have hext2 : (extract_slice fc fp (n + 1) start chunks i).2 =
            (extract_slice fc fp n start
              (chunks.take (bao_left_count chunks.length)) i).2 := by
          rw [extract_slice]; simp only [if_neg hcond, if_pos hik]
        rw [hext1, hext2, hsub, verify_slice]
        simp only [if_neg hcond, if_pos hik]
        simp [hIH]
      · have hIH := ih (chunks.drop (bao_left_count chunks.length)) len
          (start + bao_left_count chunks.length)
          (i - bao_left_count chunks.length) false
          (by rw [List.length_drop]; omega)
          (by rw [← List.length_pos, List.length_drop]; omega)
          (by rw [List.length_drop]; omega)
          (chunks_sized_drop hs)
        rw [List.length_drop] at hIH
        have hext1 : (extract_slice fc fp (n + 1) start chunks i).1 =
            (subtree_hash fc fp n start
                (chunks.take (bao_left_count chunks.length)) false,
              subtree_hash fc fp n (start + bao_left_count chunks.length)
                (chunks.drop (bao_left_count chunks.length)) false) ::
              (extract_slice fc fp n (start + bao_left_count chunks.length)
                (chunks.drop (bao_left_count chunks.length))
                (i - bao_left_count chunks.length)).1 := by
          rw [extract_slice]; simp only [if_neg hcond, if_neg hik]
        have hext2 : (extract_slice fc fp (n + 1) start chunks i).2 =
            (extract_slice fc fp n (start + bao_left_count chunks.length)
              (chunks.drop (bao_left_count chunks.length))
              (i - bao_left_count chunks.length)).2 := by
          rw [extract_slice]; simp only [if_neg hcond, if_neg hik]
        rw [hext1, hext2, hsub, verify_slice]
        simp only [if_neg hcond, if_neg hik]
        simp [hIH]

theorem get_num_chunks_eq_exact {size : Nat} (h : size ≤ 2 ^ 24) :
    get_num_chunks size = num_chunks_exact size := by
  unfold get_num_chunks num_chunks_exact
  rw [roundNearest_eq_of_le 24 size (by norm_num) h]
  apply min_eq_left
  unfold CHUNK_SIZE
  omega

/-- C7: round-trip of slice-proof generation and verification.  For every
pair of bao hash functions, every nonempty content and every
challenge-shaped range — offset `CHUNK_SIZE * i` at a chunk boundary inside
the content, size the byte size of chunk `i` — verifying the slice the
extractor produces for that range against the outboard root digest and the
same offset and size succeeds.  Consequently (second part), for content
small enough that the f32 chunk count of the challenge derivation is exact
(`file_size ≤ 2^24`), every proof `gen_proof` derives from a block hash
verifies under `check_if_merkle_proof_is_valid` with the same root, offset
and size. -/
theorem slice_proof_roundtrip :
    ∀ (fc : Nat → List Nat → Bool → Nat) (fp : Nat → Nat → Bool → Nat)
      (content : List Nat), content ≠ [] →
      (∀ i, i < num_chunks_exact content.length →
        check_if_merkle_proof_is_valid fc fp
          (slice_extract_outboard fc fp content (CHUNK_SIZE * i)
            (chunk_size_at content.length i))
          (bao_outboard_root fc fp content) (CHUNK_SIZE * i)
          (chunk_size_at content.length i) = true) ∧
      (∀ block_hash chunk_offset chunk_size,
        content.length ≤ 2 ^ 24 →
        compute_random_block_choice_from_hash block_hash content.length =
          some (chunk_offset, chunk_size) →
        gen_proof fc fp block_hash content =
          some (slice_extract_outboard fc fp content chunk_offset chunk_size) ∧
        check_if_merkle_proof_is_valid fc fp
          (slice_extract_outboard fc fp content chunk_offset chunk_size)
          (bao_outboard_root fc fp content) chunk_offset chunk_size = true) := by
  intro fc fp content hne
  have hlenpos : 0 < content.length := List.length_pos.2 hne
  have hcc : (content_chunks content).length = num_chunks_exact content.length :=
    content_chunks_fuel_length content.length content (le_refl _) hne
  have hmain : ∀ i, i < num_chunks_exact content.length →
      check_if_merkle_proof_is_valid fc fp
        (slice_extract_outboard fc fp content (CHUNK_SIZE * i)
          (chunk_size_at content.length i))
        (bao_outboard_root fc fp content) (CHUNK_SIZE * i)
        (chunk_size_at content.length i) = true := by
    intro i hi
    unfold check_if_merkle_proof_is_valid slice_extract_outboard bao_outboard_root
    dsimp only
    have hdiv : CHUNK_SIZE * i / CHUNK_SIZE = i :=
      Nat.mul_div_cancel_left i (by norm_num [CHUNK_SIZE])
    rw [hdiv, hcc]
    have h := verify_extract fc fp (content_chunks content).length
      (content_chunks content) content.length 0 i true (le_refl _)
      (content_chunks_ne_nil hne) (by rw [hcc]; exact hi)
      (content_chunks_sized hne)
    rw [hcc] at h
    exact h
  refine ⟨hmain, ?_⟩
  intro bh off sz hsmall hsome
  have hsome0 := hsome
  have hnc : get_num_chunks content.length = num_chunks_exact content.length :=
    get_num_chunks_eq_exact hsmall
  have hNpos : 0 < num_chunks_exact content.length := by
    unfold num_chunks_exact CHUNK_SIZE
    omega
  have hNle : num_chunks_exact content.length ≤ 16385 := by
    unfold num_chunks_exact CHUNK_SIZE
    omega
  have hcnlt : bh % num_chunks_exact content.length <
      num_chunks_exact content.length := Nat.mod_lt bh hNpos
  simp only [compute_random_block_choice_from_hash, hnc] at hsome
  rw [if_neg (by omega)] at hsome
  have hwrap : wrap64 (bh % num_chunks_exact content.length * CHUNK_SIZE) =
      bh % num_chunks_exact content.length * CHUNK_SIZE :=
    wrap64_eq_of_lt (by unfold CHUNK_SIZE at *; omega)
  rw [hwrap] at hsome
  simp only [Option.some.injEq, Prod.mk.injEq] at hsome
  obtain ⟨hoff, hsz⟩ := hsome
  have hszeq : sz = chunk_size_at content.length
      (bh % num_chunks_exact content.length) := by
    rw [← hsz]
    unfold chunk_size_at
    by_cases hlast : bh % num_chunks_exact content.length =
        num_chunks_exact content.length - 1
    · rw [if_pos hlast, if_pos hlast]
      have hu : u64_sub content.length
          (bh % num_chunks_exact content.length * CHUNK_SIZE) =
          content.length - bh % num_chunks_exact content.length * CHUNK_SIZE := by
        refine u64_sub_eq_of_le ?_ ?_
        · unfold num_chunks_exact CHUNK_SIZE at *
          omega
        · omega
      rw [hu, Nat.mul_comm]
    · rw [if_neg hlast, if_neg hlast]
  subst hoff
  constructor
  · unfold gen_proof
    rw [hsome0]
  · rw [hszeq]
    have h := hmain (bh % num_chunks_exact content.length) hcnlt
    simp only [Nat.mul_comm CHUNK_SIZE (bh % num_chunks_exact content.length)] at h
    exact h

/-- C7 witness: a concrete instantiation — content of 1025 bytes (two
chunks), challenged at chunk 1, with simple executable stand-ins for the
chunk-hash and parent-hash functions. -/
theorem slice_proof_roundtrip_witness :
    check_if_merkle_proof_is_valid
      (fun i c r => i + c.length + (if r then 1 else 0))
      (fun l r root => l + 3 * r + (if root then 5 else 0))
      (slice_extract_outboard
        (fun i c r => i + c.length + (if r then 1 else 0))
        (fun l r root => l + 3 * r + (if root then 5 else 0))
        (List.replicate 1025 7) (CHUNK_SIZE * 1)
        (chunk_size_at (List.replicate 1025 7).length 1))
      (bao_outboard_root
        (fun i c r => i + c.length + (if r then 1 else 0))
        (fun l r root => l + 3 * r + (if root then 5 else 0))
        (List.replicate 1025 7))
      (CHUNK_SIZE * 1) (chunk_size_at (List.replicate 1025 7).length 1) = true :=
  (slice_proof_roundtrip
    (fun i c r => i + c.length + (if r then 1 else 0))
    (fun l r root => l + 3 * r + (if root then 5 else 0))
    (List.replicate 1025 7) (List.length_pos.mp
      (by rw [List.length_replicate]; norm_num))).1 1
    (by rw [List.length_replicate]; norm_num [num_chunks_exact, CHUNK_SIZE])

end Banyan
